import Mathlib

/-!
# Retrieval core of the chatbot CLI (`src/chatbot-gemini.js`)

A shallow embedding of the pure parts of the script: `chunkText`, the retry loop of
`getEmbedding`, `cosineSimilarityCorrected`, the record-collecting loop of
`trainFromWebsite` / `trainFromMarkdown`, and the best-match scan and prompt choice of
`queryChatbot`; and of `cosineSimilarity` of `src/chatbot-openpai.js`, the sibling of
`cosineSimilarityCorrected` without its zero-magnitude guard.

Modelling conventions.
* A JavaScript string is a Lean `String` (a list of characters).  The only string
  operations the code uses are `split(/\s+/)`, `join(' ')` and template concatenation.
* A JavaScript number is an element of a linearly ordered field `α`; `Math.sqrt` is a
  parameter `sqrt : α → α`.  The theorems about similarity take `α = ℝ` and
  `sqrt = Real.sqrt`, i.e. they hold over exact real arithmetic, not over IEEE doubles.
* Division in a field is total (`x / 0 = 0`), JavaScript's is not a number of the field
  on a zero denominator (`NaN` or `±Infinity`).  `checkedDiv` makes that visible, and
  `cosineSimilarityCorrectedChecked` is `cosineSimilarityCorrected` with its division
  checked; the two are proved to agree.
* Remote calls are oracles: the outcome of each call is an input of the model.
-/

namespace Chatbot

/-! ## Strings: `split(/\s+/)` and `join(' ')` -/

/-- The characters matched by `\s` in an ECMAScript regular expression: the `WhiteSpace`
and `LineTerminator` productions. -/
def isWhiteSpace (c : Char) : Bool :=
  c.toNat = 0x09 || c.toNat = 0x0A || c.toNat = 0x0B || c.toNat = 0x0C || c.toNat = 0x0D ||
  c.toNat = 0x20 || c.toNat = 0xA0 || c.toNat = 0x1680 ||
  (0x2000 ≤ c.toNat && c.toNat ≤ 0x200A) ||
  c.toNat = 0x2028 || c.toNat = 0x2029 || c.toNat = 0x202F || c.toNat = 0x205F ||
  c.toNat = 0x3000 || c.toNat = 0xFEFF

/-- Does the character list begin with a whitespace character? -/
def startsWithSpace : List Char → Bool
  | [] => false
  | c :: _ => isWhiteSpace c

/-- Model of `s.split(/\s+/)` on the characters of `s`.  Every maximal run of whitespace is one
separator; the pieces between separators are returned in order, including an empty piece
before a leading separator and after a trailing one.  The empty string yields `[""]`
(the pattern does not match the empty string, so the result is never the empty array). -/
def splitChars : List Char → List (List Char)
  | [] => [[]]
  | c :: cs =>
    if isWhiteSpace c then
      if startsWithSpace cs then splitChars cs else [] :: splitChars cs
    else
      match splitChars cs with
      | w :: ws => (c :: w) :: ws
      | [] => [[c]]

/-- Model of `text.split(/\s+/)`, the first step of `chunkText`. -/
def splitWhitespace (text : String) : List String :=
  (splitChars text.data).map String.mk

/-- Model of `parts.join(' ')` on character lists. -/
def joinChars : List (List Char) → List Char
  | [] => []
  | [w] => w
  | w :: w' :: ws => w ++ ' ' :: joinChars (w' :: ws)

/-- Model of `currentChunk.join(' ')`. -/
def joinSpace (parts : List String) : String :=
  String.mk (joinChars (parts.map String.data))

/-! ## `chunkText` -/

/-- The `for (const word of words)` loop of `chunkText` followed by the final flush:
`currentChunk` and `chunks` are the two local arrays. -/
def chunkLoop (chunkSize : Nat) : List String → List String → List String → List String
  | [], currentChunk, chunks =>
    if currentChunk.length > 0 then chunks ++ [joinSpace currentChunk] else chunks
  | word :: words, currentChunk, chunks =>
    let currentChunk := currentChunk ++ [word]
    if currentChunk.length ≥ chunkSize then
      chunkLoop chunkSize words [] (chunks ++ [joinSpace currentChunk])
    else
      chunkLoop chunkSize words currentChunk chunks

/-- Model of `chunkText(text, chunkSize = 1000)`. -/
def chunkText (text : String) (chunkSize : Nat := 1000) : List String :=
  chunkLoop chunkSize (splitWhitespace text) [] []

/-! ## `getEmbedding` -/

/-- What one awaited `ai.models.embedContent` call does: it resolves with a response whose
`embeddings?.[0]?.values` is an array or is missing, or it rejects with an error whose
`response.status` is a number or is missing. -/
inductive CallOutcome (α : Type) where
  | response (values : Option (List α))
  | error (status : Option Nat)

/-- The observable steps of `getEmbedding`: a call of the embedding endpoint, and a
`setTimeout` wait of the given number of milliseconds. -/
inductive Event where
  | attempt
  | wait (delay : Nat)
  deriving DecidableEq, Repr

/-- The `for (let i = 0; i < retries; i++)` loop of `getEmbedding`.  The first argument is
the number of iterations left, `retries - i`; when it is `0` the loop condition fails and
the function falls through to its last line, `return null`.  `call i` is the outcome of
the call made in iteration `i`.  The result is the returned value (`none` for `null`)
together with the steps performed. -/
def getEmbeddingLoop {α : Type} (call : Nat → CallOutcome α) (retries : Nat) :
    Nat → Nat → Nat → Option (List α) × List Event
  | 0, _, _ => (none, [])
  | remaining + 1, i, delay =>
    match call i with
    | CallOutcome.response (some embeddings) => (some embeddings, [Event.attempt])
    | CallOutcome.response none => (none, [Event.attempt])
    | CallOutcome.error status =>
      if status = some 429 ∧ i < retries - 1 then
        let later := getEmbeddingLoop call retries remaining (i + 1) (delay * 2)
        (later.1, Event.attempt :: Event.wait delay :: later.2)
      else
        (none, [Event.attempt])

/-- Model of `getEmbedding(text, taskType, retries = 5, delay = 3000)`; the text and task type only
reach the remote call, whose outcomes are given by `call`. -/
def getEmbedding {α : Type} (call : Nat → CallOutcome α) (retries : Nat := 5)
    (delay : Nat := 3000) : Option (List α) × List Event :=
  getEmbeddingLoop call retries retries 0 delay

/-! ## `cosineSimilarityCorrected` -/

/-- The `for` loop of `cosineSimilarityCorrected`, threading `dotProduct`, `magnitudeA`
and `magnitudeB`.  The loop runs over the indices of `vecA`; the model stops at the end
of the shorter list, which agrees with the source whenever `vecB` is at least as long as
`vecA` (a read past the end of `vecB` has no counterpart in a field). -/
def accumulate {α : Type} [Add α] [Mul α] : List α → List α → α → α → α → α × α × α
  | a :: vecA, b :: vecB, dotProduct, magnitudeA, magnitudeB =>
    accumulate vecA vecB (dotProduct + a * b) (magnitudeA + a * a) (magnitudeB + b * b)
  | _, _, dotProduct, magnitudeA, magnitudeB => (dotProduct, magnitudeA, magnitudeB)

/-- Model of `cosineSimilarityCorrected(vecA, vecB)`, with `Math.sqrt` as the parameter `sqrt`. -/
def cosineSimilarityCorrected {α : Type} [LinearOrderedField α] (sqrt : α → α)
    (vecA vecB : List α) : α :=
  let sums := accumulate vecA vecB 0 0 0
  let dotProduct := sums.1
  let magnitudeA := sqrt sums.2.1
  let magnitudeB := sqrt sums.2.2
  if magnitudeA = 0 ∨ magnitudeB = 0 then 0 else dotProduct / (magnitudeA * magnitudeB)

/-- The division `x / y` of two finite numbers with its failure made explicit: on a zero
denominator JavaScript yields `NaN` or `±Infinity`, not a number, which is `none` here. -/
def checkedDiv {α : Type} [LinearOrderedField α] (x y : α) : Option α :=
  if y = 0 then none else some (x / y)

/-- Model of `cosineSimilarityCorrected(vecA, vecB)` line by line as above, with the
division of its last line checked: `none` when that division is executed on a zero
denominator. -/
def cosineSimilarityCorrectedChecked {α : Type} [LinearOrderedField α] (sqrt : α → α)
    (vecA vecB : List α) : Option α :=
  let sums := accumulate vecA vecB 0 0 0
  let dotProduct := sums.1
  let magnitudeA := sqrt sums.2.1
  let magnitudeB := sqrt sums.2.2
  if magnitudeA = 0 ∨ magnitudeB = 0 then some 0
  else checkedDiv dotProduct (magnitudeA * magnitudeB)

/-- Model of `cosineSimilarity(a, b)` of `src/chatbot-openpai.js` with its division
checked: three `reduce` folds and the division, with no guard in front of it.  As for
`accumulate`, reads of `b[i]` stop at the end of the shorter list. -/
def cosineSimilarity {α : Type} [LinearOrderedField α] (sqrt : α → α) (a b : List α) :
    Option α :=
  let dot := (List.zipWith (fun ai bi => ai * bi) a b).foldl (fun sum x => sum + x) 0
  let normA := sqrt (a.foldl (fun sum ai => sum + ai * ai) 0)
  let normB := sqrt (b.foldl (fun sum bi => sum + bi * bi) 0)
  checkedDiv dot (normA * normB)

/-! ## Training: `trainFromWebsite`, `trainFromMarkdown` -/

/-- One stored record, `{ text, embedding }`. -/
structure Record (α : Type) where
  text : String
  embedding : List α
  deriving DecidableEq

/-- The `for (let i = 0; i < chunks.length; i++)` loop shared by both training functions.
`embed i chunk` is the value of `await getEmbedding(chunks[i], 'RETRIEVAL_DOCUMENT')` in
iteration `i`; `data` is the array being filled. -/
def trainLoop {α : Type} (embed : Nat → String → Option (List α)) :
    List String → Nat → List (Record α) → List (Record α)
  | [], _, data => data
  | chunk :: chunks, i, data =>
    match embed i chunk with
    | some embedding => trainLoop embed chunks (i + 1) (data ++ [⟨chunk, embedding⟩])
    | none => trainLoop embed chunks (i + 1) data

/-- Model of `trainFromWebsite(url)`.  `content` is what `getWebsiteContent(url)` returned (`none`
for `null`) and `api i chunk` gives the outcomes of the embedding calls made for chunk
`i`.  The result is the array written to the data file, or `none` when the function
returns without writing. -/
def trainFromWebsite {α : Type} (content : Option String)
    (api : Nat → String → Nat → CallOutcome α) : Option (List (Record α)) :=
  match content with
  | none => none
  | some content =>
    if content = "" then none
    else some (trainLoop (fun i chunk => (getEmbedding (api i chunk)).1) (chunkText content) 0 [])

/-- Model of `trainFromMarkdown(filePath)`.  `content` is the result of
`fs.readFileSync(filePath, 'utf8')`, `none` when it throws. -/
def trainFromMarkdown {α : Type} (content : Option String)
    (api : Nat → String → Nat → CallOutcome α) : Option (List (Record α)) :=
  match content with
  | none => none
  | some content =>
    some (trainLoop (fun i chunk => (getEmbedding (api i chunk)).1) (chunkText content) 0 [])

/-! ## Querying: `queryChatbot` -/

/-- The `for (const item of trainedData)` loop of `queryChatbot`, threading `bestMatch`
and `maxSimilarity`. -/
def scanLoop {α : Type} [LinearOrderedField α] (sqrt : α → α) (queryEmbedding : List α) :
    List (Record α) → Option String → α → Option String × α
  | [], bestMatch, maxSimilarity => (bestMatch, maxSimilarity)
  | item :: trainedData, bestMatch, maxSimilarity =>
    let similarity := cosineSimilarityCorrected sqrt queryEmbedding item.embedding
    if similarity > maxSimilarity then
      scanLoop sqrt queryEmbedding trainedData (some item.text) similarity
    else
      scanLoop sqrt queryEmbedding trainedData bestMatch maxSimilarity

/-- The best-match scan of `queryChatbot`: `bestMatch = null`, `maxSimilarity = -1`, then
the loop.  Returns the final `(bestMatch, maxSimilarity)`. -/
def bestMatchScan {α : Type} [LinearOrderedField α] (sqrt : α → α) (queryEmbedding : List α)
    (trainedData : List (Record α)) : Option String × α :=
  scanLoop sqrt queryEmbedding trainedData none (-1)

/-- The prompt of the first branch of `queryChatbot`, which embeds the matched text. -/
def contextPrompt (bestMatch query : String) : String :=
  "Berdasarkan informasi berikut dari website:\n\n" ++ bestMatch ++
  "\n\nJawablah pertanyaan ini: " ++ query ++
  "\nJika informasi tidak ada, katakan \"Maaf, saya tidak menemukan informasi yang relevan di website yang Anda berikan.\""

/-- The prompt of the `else` branch of `queryChatbot`. -/
def plainPrompt (query : String) : String :=
  "Jawablah pertanyaan ini: " ++ query ++
  "\nJika Anda tidak memiliki informasi yang relevan, katakan \"Maaf, saya tidak menemukan informasi yang relevan di website yang Anda berikan.\""

/-- The choice `if (bestMatch && maxSimilarity > 0.7)`.  `bestMatch` is `null` or a
string, and a string is truthy exactly when it is not empty. -/
def buildPrompt {α : Type} [LinearOrderedField α] (bestMatch : Option String)
    (maxSimilarity : α) (query : String) : String :=
  match bestMatch with
  | none => plainPrompt query
  | some text =>
    if text ≠ "" ∧ maxSimilarity > 0.7 then contextPrompt text query else plainPrompt query

/-- Model of `queryChatbot(query)` up to the prompt handed to the generative model.  `store` is the
parsed data file (`none` when the file does not exist), `queryEmbedding` the value of
`await getEmbedding(query, 'RETRIEVAL_QUERY')`.  The result is `none` on each early
return. -/
def queryChatbot {α : Type} [LinearOrderedField α] (sqrt : α → α)
    (store : Option (List (Record α))) (queryEmbedding : Option (List α)) (query : String) :
    Option String :=
  match store with
  | none => none
  | some trainedData =>
    if trainedData.length = 0 then none
    else
      match queryEmbedding with
      | none => none
      | some queryEmbedding =>
        let found := bestMatchScan sqrt queryEmbedding trainedData
        some (buildPrompt found.1 found.2 query)

/-! ## Reference definitions taken from the specification -/

/-- Whitespace normalisation as the specification words it: every run of whitespace is
collapsed to one space.  `inRun` records that the previous character was whitespace. -/
def collapseFrom : Bool → List Char → List Char
  | _, [] => []
  | inRun, c :: cs =>
    if isWhiteSpace c then
      if inRun then collapseFrom true cs else ' ' :: collapseFrom true cs
    else c :: collapseFrom false cs

/-- The whitespace-normalised text (`text.replace(/\s+/g, ' ')`). -/
def collapseWhitespace (text : String) : String :=
  String.mk (collapseFrom false text.data)

/-- Number of words from a position on, a word being a maximal run of characters that are
not whitespace.  `inWord` records that the previous character belongs to a word. -/
def countWordsFrom : Bool → List Char → Nat
  | _, [] => 0
  | inWord, c :: cs =>
    if isWhiteSpace c then countWordsFrom false cs
    else if inWord then countWordsFrom true cs
    else countWordsFrom true cs + 1

/-- Number of words of a text as the specification counts them: whitespace-delimited
words, so that an empty or whitespace-only text has none. -/
def wordCount (text : String) : Nat :=
  countWordsFrom false text.data

/-- Length of the array `words` of `chunkText`: the number of pieces of the split, the
empty ones included. -/
def pieceCount (text : String) : Nat :=
  (splitWhitespace text).length

/-! ## Auxiliary definitions used to state the properties -/

/-- The shape of every output of `splitChars`: at least one piece, no piece contains
whitespace, and only the first and the last piece may be empty. -/
def Resplittable : List (List Char) → Prop
  | [] => False
  | [w] => ∀ c ∈ w, isWhiteSpace c = false
  | w :: w' :: g => (∀ c ∈ w, isWhiteSpace c = false) ∧ (w' ≠ [] ∨ g = []) ∧ Resplittable (w' :: g)

/-- Number of embedding calls in a trace. -/
def attempts (trace : List Event) : Nat :=
  trace.count Event.attempt

/-- The waits of a trace, in order. -/
def waits : List Event → List Nat
  | [] => []
  | Event.attempt :: trace => waits trace
  | Event.wait delay :: trace => delay :: waits trace

/-- The trace of `n + 1` calls separated by `n` waits that start at `delay` and double. -/
def backoffTrace (delay : Nat) (n : Nat) : List Event :=
  ((List.range n).map (fun k => [Event.attempt, Event.wait (delay * 2 ^ k)])).flatten ++
    [Event.attempt]

/-- The records the specification asks for: one per chunk whose embedding succeeded, in
chunk order, pairing the chunk with its own vector.  `embed i chunk` is the outcome for
the chunk at position `i`. -/
def pairedRecords {α : Type} (embed : Nat → String → Option (List α)) (start : Nat)
    (chunks : List String) : List (Record α) :=
  (chunks.enumFrom start).filterMap
    (fun p => (embed p.1 p.2).map (fun embedding => ⟨p.2, embedding⟩))

/-- The dot product `sum(A_i * B_i)` of the specification. -/
def dotProduct {α : Type} [LinearOrderedField α] (vecA vecB : List α) : α :=
  (List.zipWith (fun a b => a * b) vecA vecB).sum

/-- The squared magnitude `sum(A_i^2)` of the specification. -/
def sumSquares {α : Type} [LinearOrderedField α] (vec : List α) : α :=
  (vec.map (fun a => a * a)).sum

/-! ## Lemmas on splitting, joining and chunking -/

theorem splitChars_ne_nil (cs : List Char) : splitChars cs ≠ [] := by
  induction cs with
  | nil => simp [splitChars]
  | cons c cs ih =>
    unfold splitChars
    split_ifs
    · exact ih
    · simp
    · split <;> simp

theorem joinChars_cons (w : List Char) (ws : List (List Char)) (h : ws ≠ []) :
    joinChars (w :: ws) = w ++ ' ' :: joinChars ws := by
  cases ws with
  | nil => exact absurd rfl h
  | cons w' ws => rfl

theorem joinChars_append (g h : List (List Char)) (hg : g ≠ []) (hh : h ≠ []) :
    joinChars (g ++ h) = joinChars g ++ ' ' :: joinChars h := by
  induction g with
  | nil => exact absurd rfl hg
  | cons w g ih =>
    cases g with
    | nil => simpa [joinChars] using joinChars_cons w h hh
    | cons w' g =>
      have e : w :: w' :: g ++ h = w :: (w' :: g ++ h) := rfl
      rw [e, joinChars_cons w (w' :: g ++ h) (by simp), ih (by simp),
        joinChars_cons w (w' :: g) (by simp)]
      simp

theorem joinChars_map_joinChars (groups : List (List (List Char)))
    (h : ∀ g ∈ groups, g ≠ []) :
    joinChars (groups.map joinChars) = joinChars groups.flatten := by
  induction groups with
  | nil => rfl
  | cons g groups ih =>
    have hg : g ≠ [] := h g (by simp)
    have ih := ih (fun x hx => h x (by simp [hx]))
    cases groups with
    | nil => simp [joinChars]
    | cons g' groups =>
      have hg' : g' ≠ [] := h g' (by simp)
      have hne : (g' :: groups).flatten ≠ [] := by
        cases g' with
        | nil => exact absurd rfl hg'
        | cons x xs => simp
      have e : (g :: g' :: groups).flatten = g ++ (g' :: groups).flatten := rfl
      rw [List.map_cons, joinChars_cons _ _ (by simp), ih, e, joinChars_append _ _ hg hne]

theorem joinSpace_map_joinSpace (groups : List (List String)) (h : ∀ g ∈ groups, g ≠ []) :
    joinSpace (groups.map joinSpace) = joinSpace groups.flatten := by
  have := joinChars_map_joinChars (groups.map (List.map String.data))
    (by
      intro g hg
      obtain ⟨g', hg', rfl⟩ := List.mem_map.1 hg
      simpa using h g' hg')
  simp only [joinSpace, List.map_map, List.map_flatten] at this ⊢
  rw [← this]
  congr 1

/-- The loop of `chunkText` cuts `currentChunk ++ words` into consecutive groups of words and
joins each of them. -/
theorem chunkLoop_groups (n : Nat) (hn : 1 ≤ n) (words : List String) :
    ∀ (cur chunks : List String), cur.length < n →
    ∃ groups : List (List String),
      chunkLoop n words cur chunks = chunks ++ groups.map joinSpace ∧
      groups.flatten = cur ++ words ∧
      (∀ g ∈ groups, 1 ≤ g.length ∧ g.length ≤ n) ∧
      (∀ g ∈ groups.dropLast, g.length = n) ∧
      groups.length = (cur.length + words.length + n - 1) / n := by
  induction words with
  | nil =>
    intro cur chunks hcur
    by_cases hc : cur.length > 0
    · refine ⟨[cur], by simp [chunkLoop, hc], by simp, ?_, by simp, ?_⟩
      · intro g hg
        simp only [List.mem_singleton] at hg
        subst hg
        omega
      · simp only [List.length_singleton, List.length_nil, Nat.add_zero]
        symm
        apply Nat.div_eq_of_lt_le <;> omega
    · refine ⟨[], by simp [chunkLoop, hc], ?_, by simp, by simp, ?_⟩
      · have : cur = [] := List.length_eq_zero.1 (by omega)
        simp [this]
      · have : cur.length = 0 := by omega
        simp only [List.length_nil, this, Nat.add_zero, Nat.zero_add]
        symm
        apply Nat.div_eq_of_lt_le <;> omega
  | cons word words ih =>
    intro cur chunks hcur
    have e : chunkLoop n (word :: words) cur chunks =
        if (cur ++ [word]).length ≥ n then
          chunkLoop n words [] (chunks ++ [joinSpace (cur ++ [word])])
        else chunkLoop n words (cur ++ [word]) chunks := rfl
    by_cases hfull : (cur ++ [word]).length ≥ n
    · obtain ⟨groups, h1, h2, h3, h4, h5⟩ := ih [] (chunks ++ [joinSpace (cur ++ [word])]) (by simpa using hn)
      have hlen : cur.length + 1 = n := by
        simp only [List.length_append, List.length_singleton] at hfull
        omega
      refine ⟨(cur ++ [word]) :: groups, ?_, ?_, ?_, ?_, ?_⟩
      · rw [e, if_pos hfull, h1]
        simp
      · simp [h2]
      · intro g hg
        rcases List.mem_cons.1 hg with rfl | hg
        · simp only [List.length_append, List.length_singleton]
          omega
        · exact h3 g hg
      · intro g hg
        cases groups with
        | nil => simp at hg
        | cons g' groups =>
          rw [List.dropLast_cons₂] at hg
          rcases List.mem_cons.1 hg with rfl | hg
          · simpa using hlen
          · exact h4 g hg
      · simp only [List.length_cons, h5, List.length_nil, Nat.zero_add]
        have : cur.length + (words.length + 1) + n - 1 = (words.length + n - 1) + n := by omega
        rw [this, Nat.add_div_right _ (by omega)]
    · obtain ⟨groups, h1, h2, h3, h4, h5⟩ := ih (cur ++ [word]) chunks (by omega)
      refine ⟨groups, ?_, ?_, h3, h4, ?_⟩
      · rw [e, if_neg hfull, h1]
      · simp [h2]
      · simp only [List.length_append, List.length_singleton] at h5
        rw [h5]
        congr 1
        simp only [List.length_cons]
        omega

theorem joinChars_cons_cons (c : Char) (w : List Char) (ws : List (List Char)) :
    joinChars ((c :: w) :: ws) = c :: joinChars (w :: ws) := by
  cases ws <;> rfl

/-- Joining the pieces of a split with single spaces collapses every whitespace run. -/
theorem joinChars_splitChars (cs : List Char) :
    joinChars (splitChars cs) = collapseFrom false cs ∧
    joinChars (splitChars cs) =
      if startsWithSpace cs then ' ' :: collapseFrom true cs else collapseFrom true cs := by
  induction cs with
  | nil => simp [splitChars, joinChars, collapseFrom, startsWithSpace]
  | cons c cs ih =>
    obtain ⟨ih1, ih2⟩ := ih
    by_cases hc : isWhiteSpace c = true
    · have key : joinChars (splitChars (c :: cs)) = ' ' :: collapseFrom true cs := by
        by_cases hs : startsWithSpace cs = true
        · have e : splitChars (c :: cs) = splitChars cs := by simp [splitChars, hc, hs]
          rw [e, ih2, if_pos hs]
        · have e : splitChars (c :: cs) = [] :: splitChars cs := by simp [splitChars, hc, hs]
          rw [e, joinChars_cons _ _ (splitChars_ne_nil cs), ih2, if_neg hs]
          rfl
      refine ⟨?_, ?_⟩
      · rw [key]; simp [collapseFrom, hc]
      · rw [key]; simp [collapseFrom, startsWithSpace, hc]
    · have key : joinChars (splitChars (c :: cs)) = c :: collapseFrom false cs := by
        rw [← ih1]
        cases hsp : splitChars cs with
        | nil => exact absurd hsp (splitChars_ne_nil cs)
        | cons w ws =>
          have e : splitChars (c :: cs) = (c :: w) :: ws := by simp [splitChars, hc, hsp]
          rw [e, joinChars_cons_cons]
      refine ⟨?_, ?_⟩
      · rw [key]; simp [collapseFrom, hc]
      · rw [key]; simp [collapseFrom, startsWithSpace, hc]

theorem splitChars_head_of_not_space (cs : List Char) (h : startsWithSpace cs = false)
    (x : List Char) (xs : List (List Char)) (e : splitChars cs = x :: xs) : x ≠ [] ∨ xs = [] := by
  cases cs with
  | nil =>
    simp only [splitChars, List.cons.injEq] at e
    exact Or.inr e.2.symm
  | cons d ds =>
    have hd : isWhiteSpace d = false := h
    cases hsp : splitChars ds with
    | nil => exact absurd hsp (splitChars_ne_nil ds)
    | cons w ws =>
      have e' : splitChars (d :: ds) = (d :: w) :: ws := by simp [splitChars, hd, hsp]
      rw [e'] at e
      simp only [List.cons.injEq] at e
      left
      rw [← e.1]
      simp

theorem resplittable_splitChars (cs : List Char) : Resplittable (splitChars cs) := by
  induction cs with
  | nil => simp [splitChars, Resplittable]
  | cons c cs ih =>
    by_cases hc : isWhiteSpace c = true
    · by_cases hs : startsWithSpace cs = true
      · have e : splitChars (c :: cs) = splitChars cs := by simp [splitChars, hc, hs]
        rw [e]; exact ih
      · have e : splitChars (c :: cs) = [] :: splitChars cs := by simp [splitChars, hc, hs]
        rw [e]
        cases hsp : splitChars cs with
        | nil => exact absurd hsp (splitChars_ne_nil cs)
        | cons x xs =>
          rw [hsp] at ih
          exact ⟨by simp, splitChars_head_of_not_space cs (by simpa using hs) x xs hsp, ih⟩
    · have hc' : isWhiteSpace c = false := by simpa using hc
      cases hsp : splitChars cs with
      | nil => exact absurd hsp (splitChars_ne_nil cs)
      | cons w ws =>
        have e : splitChars (c :: cs) = (c :: w) :: ws := by simp [splitChars, hc, hsp]
        rw [e]
        rw [hsp] at ih
        cases ws with
        | nil =>
          intro d hd
          rcases List.mem_cons.1 hd with rfl | hd
          · exact hc'
          · exact ih d hd
        | cons w' g =>
          obtain ⟨h1, h2, h3⟩ := ih
          refine ⟨?_, h2, h3⟩
          intro d hd
          rcases List.mem_cons.1 hd with rfl | hd
          · exact hc'
          · exact h1 d hd

theorem splitChars_append_of_no_space (w : List Char) (hw : ∀ c ∈ w, isWhiteSpace c = false)
    (r x : List Char) (xs : List (List Char)) (e : splitChars r = x :: xs) :
    splitChars (w ++ r) = (w ++ x) :: xs := by
  induction w with
  | nil => simpa using e
  | cons c w ih =>
    have hc : isWhiteSpace c = false := hw c (by simp)
    have ih := ih (fun d hd => hw d (by simp [hd]))
    simp [splitChars, hc, ih]

theorem startsWithSpace_joinChars (w : List Char) (g : List (List Char))
    (hw : ∀ c ∈ w, isWhiteSpace c = false) (h : w ≠ [] ∨ g = []) :
    startsWithSpace (joinChars (w :: g)) = false := by
  cases w with
  | nil =>
    rcases h with h | h
    · exact absurd rfl h
    · subst h; rfl
  | cons c w =>
    rw [joinChars_cons_cons]
    exact hw c (by simp)

theorem resplittable_head (w : List Char) (g : List (List Char)) (h : Resplittable (w :: g)) :
    ∀ c ∈ w, isWhiteSpace c = false := by
  cases g with
  | nil => exact h
  | cons w' g => exact h.1

/-- Splitting the join of a list of pieces of that shape gives the pieces back. -/
theorem splitChars_joinChars (g : List (List Char)) (h : Resplittable g) :
    splitChars (joinChars g) = g := by
  induction g with
  | nil => exact absurd h (by simp [Resplittable])
  | cons w g ih =>
    cases g with
    | nil =>
      have := splitChars_append_of_no_space w h [] [] [] (by simp [splitChars])
      simpa [joinChars] using this
    | cons w' g =>
      obtain ⟨h1, h2, h3⟩ := h
      have ih := ih h3
      have hs := startsWithSpace_joinChars w' g (resplittable_head w' g h3) h2
      have hsp : isWhiteSpace ' ' = true := by decide
      have e : splitChars (' ' :: joinChars (w' :: g)) = [] :: w' :: g := by
        simp [splitChars, hsp, hs, ih]
      have := splitChars_append_of_no_space w h1 _ _ _ e
      rw [joinChars_cons _ _ (by simp), this]
      simp

theorem resplittable_append_left (a b : List (List Char)) (ha : a ≠ [])
    (h : Resplittable (a ++ b)) : Resplittable a := by
  induction a with
  | nil => exact absurd rfl ha
  | cons w a ih =>
    cases a with
    | nil => exact resplittable_head w b h
    | cons w' a =>
      obtain ⟨h1, h2, h3⟩ := h
      refine ⟨h1, ?_, ih (by simp) h3⟩
      rcases h2 with h2 | h2
      · exact Or.inl h2
      · exact Or.inr (List.append_eq_nil.1 h2).1

theorem resplittable_append_right (a b : List (List Char)) (hb : b ≠ [])
    (h : Resplittable (a ++ b)) : Resplittable b := by
  induction a with
  | nil => exact h
  | cons w a ih =>
    apply ih
    cases hab : a ++ b with
    | nil => exact absurd (List.append_eq_nil.1 hab).2 hb
    | cons x rest =>
      have e : w :: a ++ b = w :: x :: rest := by simp [hab]
      rw [e] at h
      exact h.2.2

theorem resplittable_of_flatten (groups : List (List (List Char)))
    (hne : ∀ g ∈ groups, g ≠ []) (h : Resplittable groups.flatten) :
    ∀ g ∈ groups, Resplittable g := by
  induction groups with
  | nil => simp
  | cons g groups ih =>
    intro x hx
    have hg : g ≠ [] := hne g (by simp)
    rw [List.flatten_cons] at h
    rcases List.mem_cons.1 hx with rfl | hx
    · exact resplittable_append_left _ _ hg h
    · have hfl : groups.flatten ≠ [] := by
        cases groups with
        | nil => simp at hx
        | cons g' groups =>
          have hg' : g' ≠ [] := hne g' (by simp)
          cases g' with
          | nil => exact absurd rfl hg'
          | cons y ys => simp
      exact ih (fun y hy => hne y (by simp [hy])) (resplittable_append_right _ _ hfl h) x hx

/-- Splitting a joined group of consecutive pieces of a split text gives the group back. -/
theorem splitWhitespace_joinSpace (g : List String) (h : Resplittable (g.map String.data)) :
    splitWhitespace (joinSpace g) = g := by
  simp only [splitWhitespace, joinSpace]
  rw [splitChars_joinChars _ h, List.map_map]
  have e : String.mk ∘ String.data = id := by
    funext x
    rfl
  rw [e, List.map_id]

/-- The ceiling of a quotient of naturals, in terms of truncating division. -/
theorem ceil_div_eq (a b : Nat) (hb : 1 ≤ b) : ⌈(a : ℚ) / b⌉₊ = (a + b - 1) / b := by
  have hb0 : (0 : ℚ) < b := by exact_mod_cast hb
  rcases Nat.eq_zero_or_pos a with rfl | ha
  · have : (0 + b - 1) / b = 0 := Nat.div_eq_of_lt (by omega)
    rw [this]
    simp
  · have h1 : (a + b - 1) / b * b ≤ a + b - 1 := Nat.div_mul_le_self _ _
    have h2 : a + b - 1 < b * ((a + b - 1) / b + 1) := Nat.lt_mul_div_succ _ (by omega)
    have hk0 : (a + b - 1) / b ≠ 0 := by
      intro h0
      rw [h0] at h2
      omega
    obtain ⟨j, hj⟩ := Nat.exists_eq_succ_of_ne_zero hk0
    rw [hj] at h1 h2 ⊢
    simp only [Nat.succ_eq_add_one] at h1 h2 ⊢
    have h1' : j * b < a := by
      have : (j + 1) * b = j * b + b := by ring
      omega
    have h2' : a ≤ (j + 1) * b := by
      have : b * (j + 1 + 1) = (j + 1) * b + b := by ring
      omega
    rw [Nat.ceil_eq_iff (by omega)]
    constructor
    · rw [lt_div_iff₀ hb0]
      simp only [Nat.add_sub_cancel]
      exact_mod_cast h1'
    · rw [div_le_iff₀ hb0]
      exact_mod_cast h2'

theorem resplittable_splitWhitespace (text : String) :
    Resplittable ((splitWhitespace text).map String.data) := by
  have e : (splitWhitespace text).map String.data = splitChars text.data := by
    simp only [splitWhitespace, List.map_map]
    have e' : String.data ∘ String.mk = id := by
      funext x
      rfl
    rw [e', List.map_id]
  rw [e]
  exact resplittable_splitChars _

/-- The chunks of a text are the joins of consecutive groups of the pieces of its split. -/
theorem chunkText_groups (text : String) (chunkSize : Nat) (hsize : 1 ≤ chunkSize) :
    ∃ groups : List (List String),
      chunkText text chunkSize = groups.map joinSpace ∧
      groups.flatten = splitWhitespace text ∧
      (∀ g ∈ groups.dropLast, g.length = chunkSize) ∧
      (∀ g ∈ groups,
        1 ≤ g.length ∧ g.length ≤ chunkSize ∧ splitWhitespace (joinSpace g) = g) ∧
      groups.length = ⌈(pieceCount text : ℚ) / chunkSize⌉₊ := by
  obtain ⟨groups, h1, h2, h3, h4, h5⟩ :=
    chunkLoop_groups chunkSize hsize (splitWhitespace text) [] [] (by simpa using hsize)
  refine ⟨groups, by simpa [chunkText] using h1, by simpa using h2, h4, ?_, ?_⟩
  · intro g hg
    refine ⟨(h3 g hg).1, (h3 g hg).2, ?_⟩
    have hne : ∀ x ∈ groups.map (List.map String.data), x ≠ [] := by
      intro x hx
      obtain ⟨y, hy, rfl⟩ := List.mem_map.1 hx
      have := (h3 y hy).1
      intro h0
      rw [List.map_eq_nil_iff] at h0
      rw [h0] at this
      simp at this
    have hfl : Resplittable (groups.map (List.map String.data)).flatten := by
      rw [← List.map_flatten, h2]
      simpa using resplittable_splitWhitespace text
    have := resplittable_of_flatten _ hne hfl (g.map String.data) (List.mem_map_of_mem _ hg)
    exact splitWhitespace_joinSpace g this
  · rw [ceil_div_eq _ _ hsize, h5]
    simp [pieceCount]

theorem startsWithSpace_splitChars (cs : List Char) (h : startsWithSpace cs = true) :
    ∃ ws, splitChars cs = [] :: ws := by
  induction cs with
  | nil => simp [startsWithSpace] at h
  | cons c cs ih =>
    have hc : isWhiteSpace c = true := h
    by_cases hs : startsWithSpace cs = true
    · obtain ⟨ws, hws⟩ := ih hs
      exact ⟨ws, by simp [splitChars, hc, hs, hws]⟩
    · exact ⟨splitChars cs, by simp [splitChars, hc, hs]⟩

/-- The words of a text are the non-empty pieces of its split. -/
theorem countWordsFrom_splitChars (cs : List Char) :
    countWordsFrom false cs = ((splitChars cs).filter (fun w => !w.isEmpty)).length ∧
    countWordsFrom true cs = ((splitChars cs).tail.filter (fun w => !w.isEmpty)).length := by
  induction cs with
  | nil => simp [countWordsFrom, splitChars]
  | cons c cs ih =>
    obtain ⟨ih1, ih2⟩ := ih
    by_cases hc : isWhiteSpace c = true
    · have e1 : ∀ b, countWordsFrom b (c :: cs) = countWordsFrom false cs := by
        intro b
        simp [countWordsFrom, hc]
      by_cases hs : startsWithSpace cs = true
      · have e : splitChars (c :: cs) = splitChars cs := by simp [splitChars, hc, hs]
        obtain ⟨ws, hws⟩ := startsWithSpace_splitChars cs hs
        rw [e1, e1, e, ih1, hws]
        simp
      · have e : splitChars (c :: cs) = [] :: splitChars cs := by simp [splitChars, hc, hs]
        rw [e1, e1, e, ih1]
        simp
    · cases hsp : splitChars cs with
      | nil => exact absurd hsp (splitChars_ne_nil cs)
      | cons w ws =>
        have e : splitChars (c :: cs) = (c :: w) :: ws := by simp [splitChars, hc, hsp]
        rw [hsp] at ih2
        have e1 : countWordsFrom false (c :: cs) = countWordsFrom true cs + 1 := by
          simp [countWordsFrom, hc]
        have e2 : countWordsFrom true (c :: cs) = countWordsFrom true cs := by
          simp [countWordsFrom, hc]
        rw [e1, e2, e, ih2]
        simp

theorem wordCount_eq_nonempty_pieces (text : String) :
    wordCount text = ((splitWhitespace text).filter (fun w => decide (w ≠ ""))).length := by
  rw [wordCount, (countWordsFrom_splitChars text.data).1, splitWhitespace, List.filter_map,
    List.length_map]
  congr 2
  funext w
  cases w <;> simp [String.ext_iff]

/-- When no piece of the split is empty, the words are the pieces. -/
theorem wordCount_of_proper (text : String) (h : ∀ w ∈ splitWhitespace text, w ≠ "") :
    wordCount text = pieceCount text := by
  rw [wordCount_eq_nonempty_pieces, pieceCount, List.filter_eq_self.2]
  intro w hw
  simpa using h w hw

/-- Chunk bound and count for a text whose split has no empty piece: for `chunkSize ≥ 1`,
`chunkText` returns `⌈wordCount / chunkSize⌉` chunks, every chunk but the last has exactly
`chunkSize` words and the last has between `1` and `chunkSize`. -/
theorem chunkText_count_and_bounds_of_proper (text : String) (chunkSize : Nat)
    (hsize : 1 ≤ chunkSize) (hproper : ∀ w ∈ splitWhitespace text, w ≠ "") :
    (chunkText text chunkSize).length = ⌈(wordCount text : ℚ) / chunkSize⌉₊ ∧
    (∀ chunk ∈ (chunkText text chunkSize).dropLast, wordCount chunk = chunkSize) ∧
    (∀ last, (chunkText text chunkSize).getLast? = some last →
      1 ≤ wordCount last ∧ wordCount last ≤ chunkSize) := by
  obtain ⟨groups, h1, h2, h3, h4, h5⟩ := chunkText_groups text chunkSize hsize
  have hcount : ∀ g ∈ groups, wordCount (joinSpace g) = g.length := by
    intro g hg
    have hsplit := (h4 g hg).2.2
    rw [wordCount_of_proper, pieceCount, hsplit]
    rw [hsplit]
    intro w hw
    apply hproper w
    rw [← h2]
    exact List.mem_flatten.2 ⟨g, hg, hw⟩
  refine ⟨by rw [h1, List.length_map, h5, wordCount_of_proper text hproper], ?_, ?_⟩
  · intro chunk hchunk
    rw [h1, ← List.map_dropLast] at hchunk
    obtain ⟨g, hg, rfl⟩ := List.mem_map.1 hchunk
    rw [hcount g (List.mem_of_mem_dropLast hg)]
    exact h3 g hg
  · intro last hlast
    rw [h1, List.getLast?_map] at hlast
    obtain ⟨g, hg, rfl⟩ := Option.map_eq_some'.1 hlast
    have hmem := List.mem_of_getLast?_eq_some hg
    rw [hcount g hmem]
    exact ⟨(h4 g hmem).1, (h4 g hmem).2.1⟩

theorem chunkText_count_and_bounds_of_proper_example :
    (∀ w ∈ splitWhitespace "a b c d e", w ≠ "") ∧ wordCount "a b c d e" = 5 ∧
    (chunkText "a b c d e" 2).length = ⌈(wordCount "a b c d e" : ℚ) / (2 : Nat)⌉₊ ∧
    chunkText "a b c d e" 2 = ["a b", "c d", "e"] :=
  ⟨by decide, by decide,
    (chunkText_count_and_bounds_of_proper "a b c d e" 2 (by decide) (by decide)).1, by decide⟩

/-- C4 (chunk bound and count), evaluated on the code: an empty piece of the split is
chunked like a word.  A text of two words that ends with a line break gives, with chunk
size `2`, two chunks instead of `⌈2 / 2⌉ = 1`, the last of them without a word; a text
that begins with whitespace gives a first chunk of one word instead of `2`; and with the
default chunk size the empty text and a lone line break, which have no word, give one
chunk instead of `⌈0 / 1000⌉ = 0`. -/
theorem chunkText_counts_empty_pieces :
    wordCount "a b\n" = 2 ∧ chunkText "a b\n" 2 = ["a b", ""] ∧
    (chunkText "a b\n" 2).length ≠ ⌈(wordCount "a b\n" : ℚ) / (2 : Nat)⌉₊ ∧
    wordCount "" = 0 ∧
    wordCount " a b c" = 3 ∧ chunkText " a b c" 2 = [" a", "b c"] ∧ wordCount " a" = 1 ∧
    chunkText "" = [""] ∧ wordCount "\n" = 0 ∧ chunkText "\n" = [" "] ∧
    ⌈(wordCount "" : ℚ) / (1000 : Nat)⌉₊ = 0 ∧ ⌈(wordCount "\n" : ℚ) / (1000 : Nat)⌉₊ = 0 := by
  refine ⟨by decide, by decide, ?_, by decide, by decide, by decide, by decide, by decide,
    by decide, by decide, ?_, ?_⟩
  · rw [ceil_div_eq _ _ (by decide)]
    decide
  · rw [ceil_div_eq _ _ (by decide)]
    decide
  · rw [ceil_div_eq _ _ (by decide)]
    decide

/-- C5 (chunk coverage): for `chunkSize ≥ 1`, joining the chunks of a text with single
spaces gives the text with every run of whitespace collapsed to one space. -/
theorem chunkText_coverage (text : String) (chunkSize : Nat) (hsize : 1 ≤ chunkSize) :
    joinSpace (chunkText text chunkSize) = collapseWhitespace text := by
  obtain ⟨groups, h1, h2, _, h4, _⟩ := chunkText_groups text chunkSize hsize
  have hne : ∀ g ∈ groups, g ≠ [] := by
    intro g hg h0
    have := (h4 g hg).1
    rw [h0] at this
    simp at this
  rw [h1, joinSpace_map_joinSpace groups hne, h2]
  simp only [joinSpace, collapseWhitespace, splitWhitespace, List.map_map]
  have e : String.data ∘ String.mk = id := by
    funext x
    rfl
  rw [e, List.map_id, (joinChars_splitChars text.data).1]

theorem chunkText_coverage_witness :
    joinSpace (chunkText " a \n b\tc  d " 2) = collapseWhitespace " a \n b\tc  d " ∧
    collapseWhitespace " a \n b\tc  d " = " a b c d " :=
  ⟨chunkText_coverage " a \n b\tc  d " 2 (by decide), by decide⟩

/-- C6 (degenerate chunking), evaluated on the code: the empty string is not chunked into
the empty sequence but into one empty chunk, whatever the chunk size, and a text made of
whitespace only gives one or two chunks without a word. -/
theorem chunkText_empty_text :
    (∀ chunkSize : Nat, chunkText "" chunkSize = [""]) ∧
    chunkText "" = [""] ∧ chunkText " \n " = [" "] ∧ chunkText " \n " 1 = ["", ""] := by
  refine ⟨?_, by decide, by decide, by decide⟩
  intro chunkSize
  have e : splitWhitespace "" = [""] := by decide
  by_cases h : 1 ≥ chunkSize
  · simp [chunkText, e, chunkLoop, h]
    decide
  · simp [chunkText, e, chunkLoop, h]
    decide

/-! ## Retry loop -/

theorem backoffTrace_succ (delay n : Nat) :
    backoffTrace delay (n + 1) =
      Event.attempt :: Event.wait delay :: backoffTrace (delay * 2) n := by
  simp only [backoffTrace, List.range_succ_eq_map, List.map_cons, List.map_map,
    List.flatten_cons, pow_zero, Nat.mul_one, List.cons_append, List.nil_append,
    List.singleton_append]
  congr 4
  apply List.map_congr_left
  intro k _
  simp only [Function.comp, Nat.succ_eq_add_one, pow_succ]
  have e : delay * (2 ^ k * 2) = delay * 2 * 2 ^ k := by ring
  rw [e]

theorem attempts_backoffTrace (delay n : Nat) : attempts (backoffTrace delay n) = n + 1 := by
  induction n generalizing delay with
  | zero => simp [backoffTrace, attempts]
  | succ n ih =>
    rw [backoffTrace_succ]
    have := ih (delay * 2)
    simp only [attempts] at this ⊢
    rw [List.count_cons_self, List.count_cons_of_ne (by simp), this]

theorem waits_backoffTrace (delay n : Nat) :
    waits (backoffTrace delay n) = (List.range n).map (fun k => delay * 2 ^ k) := by
  induction n generalizing delay with
  | zero => simp [backoffTrace, waits]
  | succ n ih =>
    rw [backoffTrace_succ]
    simp only [waits, ih, List.range_succ_eq_map, List.map_cons, List.map_map, pow_zero,
      Nat.mul_one]
    congr 1
    apply List.map_congr_left
    intro k _
    simp only [Function.comp, Nat.succ_eq_add_one, pow_succ]
    ring

/-- When every call is rate limited, the loop entered at iteration `i` with `remaining`
iterations left performs `remaining` calls with doubling waits and returns `null`. -/
theorem getEmbeddingLoop_rate_limited {α : Type} (call : Nat → CallOutcome α) (retries : Nat)
    (hcall : ∀ i, call i = CallOutcome.error (some 429)) :
    ∀ (remaining i delay : Nat), i + (remaining + 1) = retries →
      getEmbeddingLoop call retries (remaining + 1) i delay =
        (none, backoffTrace delay remaining) := by
  intro remaining
  induction remaining with
  | zero =>
    intro i delay h
    have hi : ¬ i < retries - 1 := by omega
    simp [getEmbeddingLoop, hcall, hi, backoffTrace]
  | succ m ih =>
    intro i delay h
    have hi : i < retries - 1 := by omega
    have := ih (i + 1) (delay * 2) (by omega)
    rw [getEmbeddingLoop]
    simp only [hcall, hi, and_self, if_true, this, backoffTrace_succ]

/-- C9 (retry exhaustion): with `retries ≥ 1` and every call failing with status 429,
`getEmbedding` returns `null` after exactly `retries` calls; between consecutive calls it
waits, and the waits are `d, 2d, 4d, …`, the `k`-th (from `0`) being `d * 2 ^ k`. -/
theorem getEmbedding_retry_exhaustion {α : Type} (call : Nat → CallOutcome α)
    (retries d : Nat) (hretries : 1 ≤ retries)
    (hcall : ∀ i, call i = CallOutcome.error (some 429)) :
    (getEmbedding call retries d).1 = none ∧
    attempts (getEmbedding call retries d).2 = retries ∧
    waits (getEmbedding call retries d).2 = (List.range (retries - 1)).map (fun k => d * 2 ^ k) ∧
    (getEmbedding call retries d).2 = backoffTrace d (retries - 1) := by
  obtain ⟨m, rfl⟩ : ∃ m, retries = m + 1 := ⟨retries - 1, by omega⟩
  have h := getEmbeddingLoop_rate_limited call (m + 1) hcall m 0 d (by omega)
  simp only [getEmbedding, h, Nat.add_sub_cancel, attempts_backoffTrace, waits_backoffTrace,
    and_self]

theorem getEmbedding_retry_exhaustion_witness :
    (getEmbedding (fun _ => (CallOutcome.error (some 429) : CallOutcome ℚ)) 5 3000).1 = none ∧
    attempts (getEmbedding (fun _ => (CallOutcome.error (some 429) : CallOutcome ℚ)) 5 3000).2
      = 5 ∧
    waits (getEmbedding (fun _ => (CallOutcome.error (some 429) : CallOutcome ℚ)) 5 3000).2
      = [3000, 6000, 12000, 24000] := by
  have h := getEmbedding_retry_exhaustion
    (fun _ => (CallOutcome.error (some 429) : CallOutcome ℚ)) 5 3000 (by decide) (fun _ => rfl)
  refine ⟨h.1, h.2.1, ?_⟩
  rw [h.2.2.1]
  decide

/-! ## Training loop -/

theorem trainLoop_eq {α : Type} (embed : Nat → String → Option (List α))
    (chunks : List String) :
    ∀ (i : Nat) (data : List (Record α)),
      trainLoop embed chunks i data = data ++ pairedRecords embed i chunks := by
  induction chunks with
  | nil => intro i data; simp [trainLoop, pairedRecords]
  | cons chunk chunks ih =>
    intro i data
    cases h : embed i chunk with
    | none =>
      simp only [trainLoop, h, ih]
      simp [pairedRecords, List.filterMap_cons, h]
    | some embedding =>
      simp only [trainLoop, h, ih]
      simp [pairedRecords, List.filterMap_cons, h]

/-- C10 (training pairing): the loop of both training functions turns any list of chunks
and any embedding outcomes into one record per successfully embedded chunk, in chunk
order, each with the chunk's own text and vector; failed chunks are skipped; and both
functions write that list for the chunks of their content, whatever the outcomes (so
also when it is empty). -/
theorem training_pairs_chunks_with_embeddings {α : Type} :
    (∀ (embed : Nat → String → Option (List α)) (chunks : List String),
      trainLoop embed chunks 0 [] = pairedRecords embed 0 chunks) ∧
    (∀ (content : String) (api : Nat → String → Nat → CallOutcome α),
      trainFromMarkdown (some content) api =
        some (pairedRecords (fun i chunk => (getEmbedding (api i chunk)).1) 0
          (chunkText content))) ∧
    (∀ (content : String) (api : Nat → String → Nat → CallOutcome α), content ≠ "" →
      trainFromWebsite (some content) api =
        some (pairedRecords (fun i chunk => (getEmbedding (api i chunk)).1) 0
          (chunkText content))) ∧
    (∀ (embed : Nat → String → Option (List α)) (chunks : List String),
      (∀ i chunk, embed i chunk = none) → trainLoop embed chunks 0 [] = []) := by
  refine ⟨?_, ?_, ?_, ?_⟩
  · intro embed chunks
    simp [trainLoop_eq]
  · intro content api
    simp [trainFromMarkdown, trainLoop_eq]
  · intro content api h
    simp [trainFromWebsite, trainLoop_eq, h]
  · intro embed chunks h
    rw [trainLoop_eq]
    simp [pairedRecords, h]

theorem training_pairs_chunks_with_embeddings_witness :
    trainLoop (fun i _ => if i = 1 then none else some [i]) ["a b", "c d", "e"] 0 [] =
      [⟨"a b", [0]⟩, ⟨"e", [2]⟩] ∧
    trainFromMarkdown (some "") (fun _ _ _ => (CallOutcome.error none : CallOutcome Nat)) =
      some [] := by
  have h := @training_pairs_chunks_with_embeddings Nat
  refine ⟨?_, ?_⟩
  · rw [h.1]
    decide
  · rw [h.2.1]
    decide

/-! ## Cosine similarity -/

theorem accumulate_eq {α : Type} [LinearOrderedField α] (vecA : List α) :
    ∀ (vecB : List α) (d mA mB : α), vecA.length = vecB.length →
      accumulate vecA vecB d mA mB =
        (d + dotProduct vecA vecB, mA + sumSquares vecA, mB + sumSquares vecB) := by
  induction vecA with
  | nil =>
    intro vecB d mA mB h
    cases vecB with
    | nil => simp [accumulate, dotProduct, sumSquares]
    | cons b vecB => simp at h
  | cons a vecA ih =>
    intro vecB d mA mB h
    cases vecB with
    | nil => simp at h
    | cons b vecB =>
      simp only [List.length_cons, Nat.add_right_cancel_iff] at h
      simp only [accumulate, ih vecB _ _ _ h, dotProduct, sumSquares, List.zipWith_cons_cons,
        List.sum_cons, List.map_cons, add_assoc]

/-- For vectors of equal length the function computes the formula of the specification,
with its zero-magnitude guard. -/
theorem cosineSimilarityCorrected_eq {α : Type} [LinearOrderedField α] (sqrt : α → α)
    (vecA vecB : List α) (h : vecA.length = vecB.length) :
    cosineSimilarityCorrected sqrt vecA vecB =
      if sqrt (sumSquares vecA) = 0 ∨ sqrt (sumSquares vecB) = 0 then 0
      else dotProduct vecA vecB / (sqrt (sumSquares vecA) * sqrt (sumSquares vecB)) := by
  simp only [cosineSimilarityCorrected, accumulate_eq vecA vecB 0 0 0 h, zero_add]

theorem sumSquares_nonneg {α : Type} [LinearOrderedField α] (vec : List α) :
    0 ≤ sumSquares vec := by
  induction vec with
  | nil => simp [sumSquares]
  | cons a vec ih =>
    simp only [sumSquares, List.map_cons, List.sum_cons] at ih ⊢
    exact add_nonneg (mul_self_nonneg a) ih

theorem sumSquares_eq_zero_iff {α : Type} [LinearOrderedField α] (vec : List α) :
    sumSquares vec = 0 ↔ ∀ a ∈ vec, a = 0 := by
  induction vec with
  | nil => simp [sumSquares]
  | cons a vec ih =>
    have h0 := sumSquares_nonneg vec
    have e : sumSquares (a :: vec) = a * a + sumSquares vec := by
      simp [sumSquares]
    rw [e, add_eq_zero_iff_of_nonneg (mul_self_nonneg a) h0, ih]
    simp

theorem dotProduct_self {α : Type} [LinearOrderedField α] (vec : List α) :
    dotProduct vec vec = sumSquares vec := by
  induction vec with
  | nil => simp [dotProduct, sumSquares]
  | cons a vec ih =>
    simp only [dotProduct, sumSquares, List.zipWith_cons_cons, List.sum_cons,
      List.map_cons] at ih ⊢
    rw [ih]

theorem dotProduct_neg {α : Type} [LinearOrderedField α] (vec : List α) :
    dotProduct vec (vec.map (fun a => -a)) = -sumSquares vec := by
  induction vec with
  | nil => simp [dotProduct, sumSquares]
  | cons a vec ih =>
    simp only [dotProduct, sumSquares, List.zipWith_cons_cons, List.sum_cons,
      List.map_cons] at ih ⊢
    rw [ih]
    ring

theorem sumSquares_neg {α : Type} [LinearOrderedField α] (vec : List α) :
    sumSquares (vec.map (fun a => -a)) = sumSquares vec := by
  induction vec with
  | nil => simp [sumSquares]
  | cons a vec ih =>
    simp only [sumSquares, List.map_cons, List.sum_cons] at ih ⊢
    rw [ih]
    ring

/-- The guard of `cosineSimilarityCorrected` keeps its division from a zero denominator:
the function with checked division always returns a number, the one the function with
field division returns. -/
theorem cosineSimilarityCorrectedChecked_eq {α : Type} [LinearOrderedField α] (sqrt : α → α)
    (vecA vecB : List α) :
    cosineSimilarityCorrectedChecked sqrt vecA vecB =
      some (cosineSimilarityCorrected sqrt vecA vecB) := by
  simp only [cosineSimilarityCorrectedChecked, cosineSimilarityCorrected]
  split_ifs with hg
  · rfl
  · push_neg at hg
    simp only [checkedDiv, if_neg (mul_ne_zero hg.1 hg.2)]

/-- The sibling `cosineSimilarity`, which divides without a guard, has no value on a zero
vector. -/
theorem cosineSimilarity_zero_vector_undefined :
    cosineSimilarity Real.sqrt [0, 0] [3, 4] = none ∧
    cosineSimilarity Real.sqrt [3, 4] [0, 0] = none := by
  constructor <;> simp [cosineSimilarity, checkedDiv]

/-- C7 (zero-vector edge case), over the reals: when the two vectors have equal length and
one of them is all zero, `cosineSimilarityCorrected` with its division checked returns the
number `0`, so it returns exactly `0` and its division is not executed on a zero
denominator; and whatever the two vectors, the checked function returns a number, never
the undefined result of a division by zero, and that number is the one computed with
field division. -/
theorem cosineSimilarityCorrected_zero_vector (vecA vecB : List ℝ)
    (hlen : vecA.length = vecB.length)
    (hzero : (∀ a ∈ vecA, a = 0) ∨ (∀ b ∈ vecB, b = 0)) :
    cosineSimilarityCorrectedChecked Real.sqrt vecA vecB = some 0 ∧
    cosineSimilarityCorrected Real.sqrt vecA vecB = 0 ∧
    (∀ A B : List ℝ, cosineSimilarityCorrectedChecked Real.sqrt A B =
      some (cosineSimilarityCorrected Real.sqrt A B)) := by
  have guard : Real.sqrt (accumulate vecA vecB 0 0 0).2.1 = 0 ∨
      Real.sqrt (accumulate vecA vecB 0 0 0).2.2 = 0 := by
    rw [accumulate_eq vecA vecB 0 0 0 hlen]
    simp only [zero_add]
    rcases hzero with h | h
    · left
      rw [(sumSquares_eq_zero_iff vecA).2 h, Real.sqrt_zero]
    · right
      rw [(sumSquares_eq_zero_iff vecB).2 h, Real.sqrt_zero]
  refine ⟨?_, ?_, ?_⟩
  · simp only [cosineSimilarityCorrectedChecked]
    rw [if_pos guard]
  · simp only [cosineSimilarityCorrected]
    rw [if_pos guard]
  · intro A B
    exact cosineSimilarityCorrectedChecked_eq Real.sqrt A B

theorem cosineSimilarityCorrected_zero_vector_witness :
    cosineSimilarityCorrectedChecked Real.sqrt [0, 0] [3, 4] = some 0 ∧
    cosineSimilarityCorrectedChecked Real.sqrt [3, 4] [0, 0] = some 0 :=
  ⟨(cosineSimilarityCorrected_zero_vector [0, 0] [3, 4] rfl (Or.inl (by simp))).1,
   (cosineSimilarityCorrected_zero_vector [3, 4] [0, 0] rfl (Or.inr (by simp))).1⟩

/-- C8 (cosine similarity correctness), over the reals: a non-zero vector has similarity
`1` with itself and `-1` with its opposite, and two vectors of equal length whose dot
product is `0` have similarity `0`. -/
theorem cosineSimilarityCorrected_correct (vecA vecB : List ℝ)
    (hlen : vecA.length = vecB.length) :
    ((∃ a ∈ vecA, a ≠ 0) →
      cosineSimilarityCorrected Real.sqrt vecA vecA = 1 ∧
      cosineSimilarityCorrected Real.sqrt vecA (vecA.map (fun a => -a)) = -1) ∧
    (dotProduct vecA vecB = 0 → cosineSimilarityCorrected Real.sqrt vecA vecB = 0) := by
  constructor
  · intro hne
    have hpos : 0 < sumSquares vecA := by
      rcases (sumSquares_nonneg vecA).lt_or_eq with h | h
      · exact h
      · obtain ⟨a, ha, hne⟩ := hne
        exact absurd ((sumSquares_eq_zero_iff vecA).1 h.symm a ha) hne
    have hs : Real.sqrt (sumSquares vecA) ≠ 0 := by
      rw [Ne, Real.sqrt_eq_zero']
      exact not_le.2 hpos
    have hmul : Real.sqrt (sumSquares vecA) * Real.sqrt (sumSquares vecA) = sumSquares vecA :=
      Real.mul_self_sqrt hpos.le
    constructor
    · rw [cosineSimilarityCorrected_eq _ _ _ rfl, if_neg (by simp [hs]), dotProduct_self, hmul]
      exact div_self hpos.ne'
    · rw [cosineSimilarityCorrected_eq _ _ _ (by simp), sumSquares_neg,
        if_neg (by simp [hs]), dotProduct_neg, hmul, neg_div, div_self hpos.ne']
  · intro hdot
    rw [cosineSimilarityCorrected_eq _ _ _ hlen, hdot]
    split_ifs
    · rfl
    · exact zero_div _

theorem cosineSimilarityCorrected_correct_witness :
    cosineSimilarityCorrected Real.sqrt [3, 4] [3, 4] = 1 ∧
    cosineSimilarityCorrected Real.sqrt [3, 4] [-3, -4] = -1 ∧
    cosineSimilarityCorrected Real.sqrt [1, 0] [0, 1] = 0 := by
  have h1 := (cosineSimilarityCorrected_correct [3, 4] [3, 4] rfl).1 ⟨3, by simp, by norm_num⟩
  have h2 := (cosineSimilarityCorrected_correct [1, 0] [0, 1] rfl).2 (by simp [dotProduct])
  refine ⟨h1.1, ?_, h2⟩
  simpa using h1.2

/-! ## Best-match scan -/

/-- What the loop of the scan computes from any starting `bestMatch` and `maxSimilarity`:
either no record beats the starting similarity and both are unchanged, or the result is the
first record of greatest similarity, which beats the starting similarity. -/
theorem scanLoop_spec {α : Type} [LinearOrderedField α] (sqrt : α → α) (q : List α)
    (data : List (Record α)) :
    ∀ (bestMatch : Option String) (m : α),
      ((scanLoop sqrt q data bestMatch m) = (bestMatch, m) ∧
        ∀ r ∈ data, cosineSimilarityCorrected sqrt q r.embedding ≤ m) ∨
      (∃ pre r post, data = pre ++ r :: post ∧
        scanLoop sqrt q data bestMatch m =
          (some r.text, cosineSimilarityCorrected sqrt q r.embedding) ∧
        m < cosineSimilarityCorrected sqrt q r.embedding ∧
        (∀ x ∈ pre, cosineSimilarityCorrected sqrt q x.embedding <
          cosineSimilarityCorrected sqrt q r.embedding) ∧
        (∀ x ∈ post, cosineSimilarityCorrected sqrt q x.embedding ≤
          cosineSimilarityCorrected sqrt q r.embedding)) := by
  induction data with
  | nil => intro bestMatch m; left; simp [scanLoop]
  | cons item data ih =>
    intro bestMatch m
    by_cases h : cosineSimilarityCorrected sqrt q item.embedding > m
    · have e : scanLoop sqrt q (item :: data) bestMatch m =
          scanLoop sqrt q data (some item.text)
            (cosineSimilarityCorrected sqrt q item.embedding) := by
        simp [scanLoop, h]
      rcases ih (some item.text) (cosineSimilarityCorrected sqrt q item.embedding) with
        ⟨h1, h2⟩ | ⟨pre, r, post, h1, h2, h3, h4, h5⟩
      · right
        exact ⟨[], item, data, rfl, by rw [e, h1], h, by simp, h2⟩
      · right
        refine ⟨item :: pre, r, post, by simp [h1], by rw [e, h2], lt_trans h h3, ?_, h5⟩
        intro x hx
        rcases List.mem_cons.1 hx with rfl | hx
        · exact h3
        · exact h4 x hx
    · have e : scanLoop sqrt q (item :: data) bestMatch m = scanLoop sqrt q data bestMatch m := by
        simp [scanLoop, h]
      have hle : cosineSimilarityCorrected sqrt q item.embedding ≤ m := not_lt.1 h
      rcases ih bestMatch m with ⟨h1, h2⟩ | ⟨pre, r, post, h1, h2, h3, h4, h5⟩
      · left
        refine ⟨by rw [e, h1], ?_⟩
        intro x hx
        rcases List.mem_cons.1 hx with rfl | hx
        · exact hle
        · exact h2 x hx
      · right
        refine ⟨item :: pre, r, post, by simp [h1], by rw [e, h2], h3, ?_, h5⟩
        intro x hx
        rcases List.mem_cons.1 hx with rfl | hx
        · exact lt_of_le_of_lt hle h3
        · exact h4 x hx

/-- C1 (first maximum wins), over the reals: when all stored embeddings have the length of
the query and the scan ends with a match, the match is the text of a record that no
record of the list beats and that every earlier record falls strictly short of, and the
reported score is the similarity of that record. -/
theorem bestMatchScan_first_maximum (queryEmbedding : List ℝ) (trainedData : List (Record ℝ))
    (hlen : ∀ r ∈ trainedData, r.embedding.length = queryEmbedding.length)
    (text : String)
    (hmatch : (bestMatchScan Real.sqrt queryEmbedding trainedData).1 = some text) :
    ∃ pre r post, trainedData = pre ++ r :: post ∧ text = r.text ∧
      (bestMatchScan Real.sqrt queryEmbedding trainedData).2 =
        cosineSimilarityCorrected Real.sqrt queryEmbedding r.embedding ∧
      (∀ x ∈ trainedData, cosineSimilarityCorrected Real.sqrt queryEmbedding x.embedding ≤
        cosineSimilarityCorrected Real.sqrt queryEmbedding r.embedding) ∧
      (∀ x ∈ pre, cosineSimilarityCorrected Real.sqrt queryEmbedding x.embedding <
        cosineSimilarityCorrected Real.sqrt queryEmbedding r.embedding) := by
  have _ := hlen
  rcases scanLoop_spec Real.sqrt queryEmbedding trainedData none (-1) with
    ⟨h1, _⟩ | ⟨pre, r, post, h1, h2, _, h4, h5⟩
  · rw [bestMatchScan, h1] at hmatch
    exact absurd hmatch (by simp)
  · rw [bestMatchScan, h2] at hmatch
    refine ⟨pre, r, post, h1, ?_, by rw [bestMatchScan, h2], ?_, h4⟩
    · simpa using hmatch.symm
    · intro x hx
      rw [h1] at hx
      rcases List.mem_append.1 hx with hx | hx
      · exact (h4 x hx).le
      · rcases List.mem_cons.1 hx with rfl | hx
        · exact le_refl _
        · exact h5 x hx

theorem bestMatchScan_first_maximum_witness :
    (bestMatchScan Real.sqrt [1, 0]
      [⟨"c d", [0, 1]⟩, ⟨"a b", [1, 0]⟩, ⟨"e f", [1, 0]⟩]).1 = some "a b" ∧
    ∃ pre r post,
      ([⟨"c d", [0, 1]⟩, ⟨"a b", [1, 0]⟩, ⟨"e f", [1, 0]⟩] : List (Record ℝ)) =
        pre ++ r :: post ∧ "a b" = r.text ∧
      (bestMatchScan Real.sqrt [1, 0]
        [⟨"c d", [0, 1]⟩, ⟨"a b", [1, 0]⟩, ⟨"e f", [1, 0]⟩]).2 =
        cosineSimilarityCorrected Real.sqrt [1, 0] r.embedding ∧
      (∀ x ∈ ([⟨"c d", [0, 1]⟩, ⟨"a b", [1, 0]⟩, ⟨"e f", [1, 0]⟩] : List (Record ℝ)),
        cosineSimilarityCorrected Real.sqrt [1, 0] x.embedding ≤
          cosineSimilarityCorrected Real.sqrt [1, 0] r.embedding) ∧
      (∀ x ∈ pre, cosineSimilarityCorrected Real.sqrt [1, 0] x.embedding <
        cosineSimilarityCorrected Real.sqrt [1, 0] r.embedding) := by
  have hm : (bestMatchScan Real.sqrt [1, 0]
      [⟨"c d", [0, 1]⟩, ⟨"a b", [1, 0]⟩, ⟨"e f", [1, 0]⟩]).1 = some "a b" := by
    simp [bestMatchScan, scanLoop, cosineSimilarityCorrected, accumulate]
  exact ⟨hm, bestMatchScan_first_maximum [1, 0] _ (by simp) "a b" hm⟩

/-- Cauchy–Schwarz for lists of equal length. -/
theorem dotProduct_sq_le (vecA : List ℝ) :
    ∀ vecB : List ℝ, vecA.length = vecB.length →
      dotProduct vecA vecB ^ 2 ≤ sumSquares vecA * sumSquares vecB := by
  induction vecA with
  | nil =>
    intro vecB h
    cases vecB with
    | nil => simp [dotProduct, sumSquares]
    | cons b vecB => simp at h
  | cons a vecA ih =>
    intro vecB h
    cases vecB with
    | nil => simp at h
    | cons b vecB =>
      simp only [List.length_cons, Nat.add_right_cancel_iff] at h
      have hd := ih vecB h
      have hA := sumSquares_nonneg vecA
      have hB := sumSquares_nonneg vecB
      have eA : sumSquares (a :: vecA) = a * a + sumSquares vecA := by simp [sumSquares]
      have eB : sumSquares (b :: vecB) = b * b + sumSquares vecB := by simp [sumSquares]
      have eD : dotProduct (a :: vecA) (b :: vecB) = a * b + dotProduct vecA vecB := by
        simp [dotProduct]
      rw [eA, eB, eD]
      have hX : 0 ≤ sumSquares vecA * (b * b) + sumSquares vecB * (a * a) :=
        add_nonneg (mul_nonneg hA (mul_self_nonneg b)) (mul_nonneg hB (mul_self_nonneg a))
      have hY : (2 * dotProduct vecA vecB * (a * b)) ^ 2 ≤
          (sumSquares vecA * (b * b) + sumSquares vecB * (a * a)) ^ 2 := by
        have h1 : 0 ≤ (sumSquares vecA * (b * b) - sumSquares vecB * (a * a)) ^ 2 := sq_nonneg _
        have h2 : 0 ≤ (a * b) ^ 2 := sq_nonneg _
        nlinarith [mul_le_mul_of_nonneg_right hd h2]
      have hZ : 2 * dotProduct vecA vecB * (a * b) ≤
          sumSquares vecA * (b * b) + sumSquares vecB * (a * a) :=
        le_trans (le_abs_self _) (abs_le_of_sq_le_sq hY hX)
      nlinarith

/-- Over the reals the similarity of two vectors of equal length is at least `-1`. -/
theorem neg_one_le_cosineSimilarityCorrected (vecA vecB : List ℝ)
    (h : vecA.length = vecB.length) :
    -1 ≤ cosineSimilarityCorrected Real.sqrt vecA vecB := by
  rw [cosineSimilarityCorrected_eq _ _ _ h]
  split_ifs with hg
  · norm_num
  · push_neg at hg
    have hA : 0 < Real.sqrt (sumSquares vecA) :=
      lt_of_le_of_ne (Real.sqrt_nonneg _) (Ne.symm hg.1)
    have hB : 0 < Real.sqrt (sumSquares vecB) :=
      lt_of_le_of_ne (Real.sqrt_nonneg _) (Ne.symm hg.2)
    rw [le_div_iff₀ (mul_pos hA hB)]
    have hcs := dotProduct_sq_le vecA vecB h
    have habs : |dotProduct vecA vecB| ≤
        Real.sqrt (sumSquares vecA) * Real.sqrt (sumSquares vecB) := by
      rw [← Real.sqrt_mul (sumSquares_nonneg vecA), ← Real.sqrt_sq_eq_abs]
      exact Real.sqrt_le_sqrt hcs
    have := neg_abs_le (dotProduct vecA vecB)
    linarith

/-- C2 as stated fails: a one-record list whose embedding is opposite to the query has
similarity `-1`, which is not strictly greater than the initial `maxSimilarity = -1`, so
the scan of a non-empty list ends with no match. -/
theorem bestMatchScan_nonempty_without_match :
    ([⟨"a", [-1]⟩] : List (Record ℝ)) ≠ [] ∧
    ([-1] : List ℝ).length = ([1] : List ℝ).length ∧
    bestMatchScan Real.sqrt [1] [⟨"a", [-1]⟩] = (none, -1) := by
  refine ⟨by simp, rfl, ?_⟩
  simp [bestMatchScan, scanLoop, cosineSimilarityCorrected, accumulate]

/-- C2, amended, over the reals: with all stored embeddings of the query's length, the
scan finishes with no match exactly when every record has similarity `-1` to the query
(so also for the empty list), and it finishes with a match as soon as one record has
similarity strictly greater than `-1`. -/
theorem bestMatchScan_none_iff (queryEmbedding : List ℝ) (trainedData : List (Record ℝ))
    (hlen : ∀ r ∈ trainedData, r.embedding.length = queryEmbedding.length) :
    ((bestMatchScan Real.sqrt queryEmbedding trainedData).1 = none ↔
      ∀ r ∈ trainedData, cosineSimilarityCorrected Real.sqrt queryEmbedding r.embedding = -1) ∧
    ((∃ r ∈ trainedData, -1 < cosineSimilarityCorrected Real.sqrt queryEmbedding r.embedding) →
      ∃ text, (bestMatchScan Real.sqrt queryEmbedding trainedData).1 = some text) ∧
    (bestMatchScan Real.sqrt queryEmbedding []).1 = none := by
  have hiff : (bestMatchScan Real.sqrt queryEmbedding trainedData).1 = none ↔
      ∀ r ∈ trainedData,
        cosineSimilarityCorrected Real.sqrt queryEmbedding r.embedding = -1 := by
    rcases scanLoop_spec Real.sqrt queryEmbedding trainedData none (-1) with
      ⟨h1, h2⟩ | ⟨pre, r, post, h1, h2, h3, _, _⟩
    · constructor
      · intro _ r hr
        exact le_antisymm (h2 r hr)
          (neg_one_le_cosineSimilarityCorrected _ _ (hlen r hr).symm)
      · intro _
        rw [bestMatchScan, h1]
    · constructor
      · intro h
        rw [bestMatchScan, h2] at h
        exact absurd h (by simp)
      · intro h
        have hr : r ∈ trainedData := by rw [h1]; simp
        rw [h r hr] at h3
        exact absurd h3 (lt_irrefl _)
  refine ⟨hiff, ?_, rfl⟩
  rintro ⟨r, hr, hgt⟩
  cases hres : (bestMatchScan Real.sqrt queryEmbedding trainedData).1 with
  | some text => exact ⟨text, rfl⟩
  | none =>
    have := hiff.1 hres r hr
    rw [this] at hgt
    exact absurd hgt (lt_irrefl _)

theorem bestMatchScan_none_iff_witness :
    (∃ text, (bestMatchScan Real.sqrt [1, 0] [⟨"a b", [1, 0]⟩, ⟨"c d", [0, 1]⟩]).1 = some text) ∧
    ((bestMatchScan Real.sqrt [1] [⟨"a", [-1]⟩]).1 = none ↔
      ∀ r ∈ ([⟨"a", [-1]⟩] : List (Record ℝ)),
        cosineSimilarityCorrected Real.sqrt [1] r.embedding = -1) :=
  ⟨(bestMatchScan_none_iff [1, 0] [⟨"a b", [1, 0]⟩, ⟨"c d", [0, 1]⟩] (by simp)).2.1
      ⟨⟨"c d", [0, 1]⟩, by simp, by
        simp [cosineSimilarityCorrected, accumulate]⟩,
   (bestMatchScan_none_iff [1] [⟨"a", [-1]⟩] (by simp)).1⟩

/-! ## Prompt choice -/

theorem contextPrompt_ne_plainPrompt (text query query' : String) :
    contextPrompt text query ≠ plainPrompt query' := by
  intro h
  have := congrArg (fun s : String => s.data.head?) h
  simp [contextPrompt, plainPrompt, String.data_append] at this

/-- C3 as stated fails: a match whose text is the empty string is falsy, so with a score
of `0.9 > 0.7` the context-free prompt is built. -/
theorem buildPrompt_empty_match_above_threshold :
    (0.9 : ℝ) > 0.7 ∧
    buildPrompt (some "") (0.9 : ℝ) "q" = plainPrompt "q" ∧
    buildPrompt (some "") (0.9 : ℝ) "q" ≠ contextPrompt "" "q" := by
  have e : buildPrompt (some "") (0.9 : ℝ) "q" = plainPrompt "q" := by
    simp [buildPrompt]
  refine ⟨by norm_num, e, ?_⟩
  rw [e]
  exact (contextPrompt_ne_plainPrompt "" "q" "q").symm

/-- C3, amended: the prompt embedding the matched text is built if and only if there is a
match, its text is not empty and its score is strictly greater than `0.7`; in every other
case, in particular whenever the score is at most `0.7`, the context-free prompt is
built. -/
theorem buildPrompt_threshold_gating {α : Type} [LinearOrderedField α]
    (bestMatch : Option String) (maxSimilarity : α) (query : String) :
    ((∃ text, bestMatch = some text ∧
        buildPrompt bestMatch maxSimilarity query = contextPrompt text query) ↔
      (∃ text, bestMatch = some text ∧ text ≠ "" ∧ maxSimilarity > 0.7)) ∧
    (¬ (∃ text, bestMatch = some text ∧ text ≠ "" ∧ maxSimilarity > 0.7) →
      buildPrompt bestMatch maxSimilarity query = plainPrompt query) ∧
    (maxSimilarity ≤ 0.7 → buildPrompt bestMatch maxSimilarity query = plainPrompt query) := by
  cases bestMatch with
  | none => simp [buildPrompt]
  | some text =>
    by_cases h : text ≠ "" ∧ maxSimilarity > 0.7
    · have e : buildPrompt (some text) maxSimilarity query = contextPrompt text query := by
        simp only [buildPrompt, if_pos h]
      refine ⟨?_, ?_, ?_⟩
      · constructor
        · intro _
          exact ⟨text, rfl, h.1, h.2⟩
        · intro _
          exact ⟨text, rfl, e⟩
      · intro hn
        exact absurd ⟨text, rfl, h.1, h.2⟩ hn
      · intro hle
        exact absurd h.2 (not_lt.2 hle)
    · have e : buildPrompt (some text) maxSimilarity query = plainPrompt query := by
        simp only [buildPrompt, if_neg h]
      refine ⟨?_, fun _ => e, fun _ => e⟩
      constructor
      · rintro ⟨t, ht, hb⟩
        rw [e] at hb
        exact absurd hb.symm (contextPrompt_ne_plainPrompt _ _ _)
      · rintro ⟨t, ht, h1, h2⟩
        cases ht
        exact absurd ⟨h1, h2⟩ h

theorem buildPrompt_threshold_gating_witness :
    buildPrompt (some "a b") (0.7 : ℝ) "q" = plainPrompt "q" ∧
    buildPrompt (some "a b") (1 : ℝ) "q" = contextPrompt "a b" "q" := by
  refine ⟨(buildPrompt_threshold_gating (some "a b") (0.7 : ℝ) "q").2.2 (le_refl _), ?_⟩
  obtain ⟨text, h1, h2⟩ := (buildPrompt_threshold_gating (some "a b") (1 : ℝ) "q").1.2
    ⟨"a b", rfl, by decide, by norm_num⟩
  cases h1
  exact h2

end Chatbot
